import Mathlib

/-!
A verification development for `ugly_clearness.py`, a procedural ASCII-art
generator.  The Python data model and operations are shallowly embedded:

* Python `int` becomes `Int` (arbitrary precision in Python as well);
  `&  0xFFFFFFFF` becomes `% 2^32` (Lean's `Int` `%` is Euclidean, which
  agrees with Python's `%` for a positive modulus), and `>>`/`//` on the
  nonnegative intermediate values become `/` (Euclidean division, which
  agrees with Python floor division on those values).
* Python `float` tones become rationals (`ℚ`); the tones used by the
  program are small decimal fractions, and none of the verified operations
  on them are sensitive to binary rounding.
* Python's truncating `int(q)` conversion becomes `pyInt` (truncation
  toward zero, `Int.tdiv` of numerator by denominator).
* The mutable `grid` local of `Field.render` becomes a total function
  `Int → Int → ℚ × String` updated functionally; `dict` insertion order in
  `braid` becomes an association list updated in place.
* Methods that return a value and leave the object unchanged are embedded
  in state-passing style where the frame matters (`Field.render` returns
  the rendered string together with the field).
-/

namespace UglyClearness

/-- `Mark`: a single inscription on an abstract plane (frozen dataclass:
`x`, `y`, `tone`, `tag`). -/
structure Mark where
  x : Int
  y : Int
  tone : ℚ
  tag : String
deriving DecidableEq

/-- `Layer`: a plain container holding a list of marks. -/
structure Layer where
  marks : List Mark
deriving DecidableEq

/-- `Layer.add(*m)` extends the mark list. -/
def Layer.add (l : Layer) (ms : List Mark) : Layer :=
  ⟨l.marks ++ ms⟩

/-- `Field`: a fixed-size canvas owning an ordered list of layers. -/
structure Field where
  width : Int
  height : Int
  layers : List Layer
deriving DecidableEq

/-- `Field.deposit(layer)` appends a layer to the field. -/
def Field.deposit (f : Field) (l : Layer) : Field :=
  { f with layers := f.layers ++ [l] }

/-- The canonical tag order `ORDER`. -/
def ORDER : List String :=
  ["gap", "ask", "answer", "turn", "doubt", "care", "resolve"]

/-- `PALETTE.get(tag, '?')` as a total function: the fixed base character
of each tag, with fallback for unknown tags. -/
def PALETTE (tag : String) : Char :=
  if tag = "gap" then ' '
  else if tag = "ask" then '·'
  else if tag = "answer" then '—'
  else if tag = "turn" then '∧'
  else if tag = "doubt" then '~'
  else if tag = "care" then '*'
  else if tag = "resolve" then '∎'
  else '?'

/-- Python's `int(q)` conversion of a rational: truncation toward zero. -/
def pyInt (q : ℚ) : ℤ :=
  q.num.tdiv q.den

/-- The clamp `max(0.0, min(1.0, tone))` used by `symbol`. -/
def clamp01 (t : ℚ) : ℚ :=
  max 0 (min 1 t)

/-- `symbol(tag, tone)`: the tag's base character repeated
`1 + int(clamp * 2)` times (Python string repetition of a 1-character
string; a nonpositive count would give the empty string, matching
`Int.toNat`). -/
def symbol (tag : String) (tone : ℚ) : String :=
  String.mk (List.replicate (1 + pyInt (clamp01 tone * 2)).toNat (PALETTE tag))

/-- `fold_trace(trace)`: hash-like folding of the first character codes.
Starting from `0`, the running value `h` stays nonnegative in Python
(`(h << 5) - h = 31 * h` and xor of nonnegatives), so the fold lives in
`ℕ`; `(h <<< 5) - h` never truncates. -/
def fold_trace (trace : List String) : ℕ :=
  trace.foldl
    (fun h t => ((h <<< 5) - h) ^^^ (if t.isEmpty then 0 else t.front.toNat))
    0

/-- `perturb(x, y, seed)`: deterministic drift.  `seed * mult + 1` is
masked to 32 bits (`% 2^32`, matching Python's `& 0xFFFFFFFF` on any
integer), then two bit windows (`>> 8` and `>> 16`, i.e. division of the
nonnegative `r`) give `dx, dy ∈ {-1, 0, 1}`. -/
def perturb (x y seed : Int) : Int × Int :=
  let r : Int := (seed * 6364136223846793005 + 1) % 4294967296
  let dx : Int := (r / 256) % 3 - 1
  let dy : Int := (r / 65536) % 3 - 1
  (x + dx, y + dy)

/-- The per-tag deterministic step rule of `inscribe`'s loop body: from the
unperturbed running position `(x, y)` at iteration `i`, the next running
position.  Python booleans added to ints count as `1`/`0`, and
`1 if c else -1` tests truthiness of `i % 2` resp. `(i // 2) % 2`. -/
def stepRule (tag : String) (stride : Int) (i : ℕ) (x y : Int) : Int × Int :=
  if tag = "ask" then (x + stride, y - (if i % 2 = 0 then 1 else 0))
  else if tag = "answer" then (x + stride, y + (if i % 3 = 0 then 1 else 0))
  else if tag = "turn" then
    (x + (if i % 2 = 0 then 1 else 0), y + (if i % 2 ≠ 0 then 1 else -1))
  else if tag = "doubt" then (x + stride, y + (if (i / 2) % 2 ≠ 0 then 1 else -1))
  else if tag = "care" then (x + stride, y)
  else if tag = "resolve" then (x + stride, y + 0)
  else (x + stride, y)

/-- The loop of `inscribe`: with `n` iterations left and loop counter `i`,
emit a mark at the perturbed running position, then advance the running
position by the step rule. -/
def inscribeGo (tag : String) (stride : Int) (tone : ℚ) :
    ℕ → ℕ → Int → Int → List Mark
  | 0, _, _, _ => []
  | Nat.succ n, i, x, y =>
    let p := perturb x y (Int.ofNat (i + fold_trace [tag]))
    let next := stepRule tag stride i x y
    Mark.mk p.1 p.2 tone tag :: inscribeGo tag stride tone n (i + 1) next.1 next.2

/-- `inscribe(field, origin, steps, tag, stride, tone)`: build the layer of
`steps` marks starting at `origin`, deposit it into the field, and return
both the layer and the updated field. -/
def inscribe (f : Field) (origin : Int × Int) (steps : ℕ) (tag : String)
    (stride : Int) (tone : ℚ) : Layer × Field :=
  let layer : Layer := ⟨inscribeGo tag stride tone steps 0 origin.1 origin.2⟩
  (layer, f.deposit layer)

/-- The unperturbed running position of `inscribe` in suffix form: starting
at position `p` with loop counter `i`, the position after `j` more steps. -/
def pathPosFrom (tag : String) (stride : Int) : ℕ → Int × Int → ℕ → Int × Int
  | _, p, 0 => p
  | i, p, Nat.succ j =>
    pathPosFrom tag stride (i + 1) (stepRule tag stride i p.1 p.2) j

/-- The unperturbed running position of `inscribe` before iteration `i`,
as the specification describes it: `pathPos 0 = origin` and
`pathPos (i+1)` advances `pathPos i` by the step rule at `i`. -/
def pathPos (tag : String) (stride : Int) (origin : Int × Int) : ℕ → Int × Int
  | 0 => origin
  | Nat.succ i =>
    stepRule tag stride i (pathPos tag stride origin i).1
      (pathPos tag stride origin i).2

/-- One `braid` loop iteration on the insertion-ordered association list
modelling the Python `dict` `bag`: `bag[key] = m` executed when
`key not in bag or bag[key].tone <= m.tone` (replacing in place preserves
the dict's insertion order; a fresh key is appended at the end). -/
def bagUpdate : List ((Int × Int) × Mark) → Mark → List ((Int × Int) × Mark)
  | [], m => [((m.x, m.y), m)]
  | (k, v) :: rest, m =>
    if k = (m.x, m.y) then
      (if v.tone ≤ m.tone then (k, m) :: rest else (k, v) :: rest)
    else (k, v) :: bagUpdate rest m

/-- `braid(*layers)`: fold every mark of every layer through the bag, then
take the values in insertion order. -/
def braid (layers : List Layer) : Layer :=
  ⟨(layers.foldl (fun bag l => l.marks.foldl bagUpdate bag) []).map Prod.snd⟩

/-- Lookup in the association-list bag (first entry with the key, mirroring
`bag[key]` / `key in bag`). -/
def bagFind : List ((Int × Int) × Mark) → (Int × Int) → Option Mark
  | [], _ => none
  | (k, v) :: rest, c => if k = c then some v else bagFind rest c

/-- Well-formedness of the bag: keys are pairwise distinct and each stored
mark sits at its own key. -/
def bagWF (bag : List ((Int × Int) × Mark)) : Prop :=
  (bag.map Prod.fst).Nodup ∧ ∀ kv ∈ bag, (kv.2.x, kv.2.y) = kv.1

/-- All marks of a list that sit at coordinate `c`. -/
def marksAt (ms : List Mark) (c : Int × Int) : List Mark :=
  ms.filter (fun m => decide ((m.x, m.y) = c))

/-- One step of the "keep the mark with the highest tone, later one wins
ties" scan (the specification's selection rule). -/
def winStep (acc : Option Mark) (m : Mark) : Option Mark :=
  match acc with
  | none => some m
  | some w => if w.tone ≤ m.tone then some m else some w

/-- The winner scan restricted to coordinate `c`: marks at other
coordinates are skipped. -/
def winAt (c : Int × Int) (acc : Option Mark) (m : Mark) : Option Mark :=
  if (m.x, m.y) = c then winStep acc m else acc

/-- `Modelled from the spec` selection rule of §4.5: among all input marks
at coordinate `c`, in processing order, the mark with the highest tone,
where among equal-highest-tone marks the last processed one is kept. -/
def specWinner (ms : List Mark) (c : Int × Int) : Option Mark :=
  (marksAt ms c).foldl winStep none

/-- All marks of a field in processing order: layer deposit order, then
mark order within each layer. -/
def allMarks (f : Field) : List Mark :=
  (f.layers.map Layer.marks).flatten

/-- The render grid's initial state: every cell `(0.0, ' ')`. -/
def initGrid : Int → Int → ℚ × String :=
  fun _ _ => ((0 : ℚ), " ")

/-- One mark applied to the working grid of `Field.render`: in-bounds marks
override the cell at `(m.y, m.x)` when `m.tone >= old_tone`; out-of-bounds
marks are dropped. -/
def renderStep (w h : Int) (g : Int → Int → ℚ × String) (m : Mark) :
    Int → Int → ℚ × String :=
  if 0 ≤ m.x ∧ m.x < w ∧ 0 ≤ m.y ∧ m.y < h then
    fun y x =>
      if y = m.y ∧ x = m.x then
        (if (g m.y m.x).1 ≤ m.tone then (m.tone, symbol m.tag m.tone)
         else g y x)
      else g y x
  else g

/-- The working grid of `Field.render` after traversing every layer in
deposit order and every mark in layer order. -/
def renderGrid (f : Field) : Int → Int → ℚ × String :=
  f.layers.foldl (fun g l => l.marks.foldl (renderStep f.width f.height) g)
    initGrid

/-- Python `str.rstrip()`: drop trailing whitespace. -/
def rstrip (s : String) : String :=
  String.mk (s.toList.reverse.dropWhile Char.isWhitespace).reverse

/-- The rendered rows: for each `y`, the concatenation of the stored cell
strings of row `y`, right-stripped. -/
def renderLines (f : Field) : List String :=
  (List.range f.height.toNat).map fun y =>
    rstrip (String.join ((List.range f.width.toNat).map fun x =>
      (renderGrid f (Int.ofNat y) (Int.ofNat x)).2))

/-- The legend line appended when `legend` is true. -/
def legendStr : String :=
  "\n legend: " ++ String.intercalate "  "
    ((ORDER.filter fun t => decide (t ≠ "gap")).map fun t =>
      symbol t (7 / 10) ++ "=" ++ t)

/-- `Field.render(legend)`, in state-passing style: the rendered string
together with the field after the call (the method only reads the field,
so it is returned as is). -/
def Field.render (f : Field) (legend : Bool) : String × Field :=
  let s := String.intercalate "\n" (renderLines f)
  let s2 := if legend then s ++ legendStr else s
  (s2, f)

/-- Fixture: low-tone mark for the override witnesses. -/
def wMarkLow : Mark :=
  ⟨1, 1, mkRat 9 20, "ask"⟩

/-- Fixture: high-tone mark at the same cell. -/
def wMarkHigh : Mark :=
  ⟨1, 1, mkRat 3 5, "answer"⟩

/-- Fixture: equal-tone mark at the same cell (for the tie-break witness). -/
def wMarkTie : Mark :=
  ⟨1, 1, mkRat 9 20, "care"⟩

/-- Fixture: a 4×4 field holding the two override marks in one layer. -/
def wField1 : Field :=
  ⟨4, 4, [⟨[wMarkLow, wMarkHigh]⟩]⟩

/-- Fixture: an out-of-bounds mark. -/
def oobMark : Mark :=
  ⟨9, 0, mkRat 1 1, "doubt"⟩

/-- Fixture: a 2×2 field containing only the out-of-bounds mark. -/
def wField4a : Field :=
  ⟨2, 2, [⟨[oobMark]⟩]⟩

/-- Fixture: the same 2×2 field with the out-of-bounds mark removed. -/
def wField4b : Field :=
  ⟨2, 2, [⟨[]⟩]⟩

/-- Fixture: a 4×4 field with the two equal-tone marks in two layers. -/
def wFieldTie : Field :=
  ⟨4, 4, [⟨[wMarkLow]⟩, ⟨[wMarkTie]⟩]⟩

/-- Fixture: an empty 8×8 field for the path witness. -/
def wField0 : Field :=
  ⟨8, 8, []⟩

/-- Fixture: two layers for the braid witnesses. -/
def wLayerA : Layer :=
  ⟨[wMarkLow, oobMark]⟩

/-- Fixture: second braid layer. -/
def wLayerB : Layer :=
  ⟨[wMarkHigh]⟩

/-- On nonnegative rationals, Python's truncating `int` agrees with the
floor. -/
lemma pyInt_eq_floor (q : ℚ) (h : 0 ≤ q) : pyInt q = ⌊q⌋ := by
  rw [pyInt, Rat.floor_def]
  exact Int.tdiv_eq_ediv (Rat.num_nonneg.mpr h) (Int.ofNat_nonneg q.den)

lemma clamp01_nonneg (t : ℚ) : 0 ≤ clamp01 t :=
  le_max_left 0 _

lemma clamp01_le_one (t : ℚ) : clamp01 t ≤ 1 :=
  max_le (by norm_num) (min_le_left 1 t)

lemma clamp01_mono {t1 t2 : ℚ} (h : t1 ≤ t2) : clamp01 t1 ≤ clamp01 t2 :=
  max_le_max le_rfl (min_le_min le_rfl h)

lemma clamp01_of_mem {t : ℚ} (h0 : 0 ≤ t) (h1 : t ≤ 1) : clamp01 t = t := by
  rw [clamp01, min_eq_right h1, max_eq_right h0]

/-- The length of a rendered symbol, via the floor of twice the clamped
tone. -/
lemma symbol_length (tag : String) (t : ℚ) :
    (symbol tag t).length = 1 + (⌊clamp01 t * 2⌋).toNat := by
  have h0 : (0 : ℚ) ≤ clamp01 t * 2 := by
    have := clamp01_nonneg t
    nlinarith
  have hf : 0 ≤ ⌊clamp01 t * 2⌋ := Int.floor_nonneg.mpr h0
  rw [symbol, String.length_mk, List.length_replicate, pyInt_eq_floor _ h0]
  omega

lemma floor_twice_clamp_nonneg (t : ℚ) : 0 ≤ ⌊clamp01 t * 2⌋ := by
  refine Int.floor_nonneg.mpr ?_
  have := clamp01_nonneg t
  nlinarith

lemma floor_twice_clamp_le_two (t : ℚ) : ⌊clamp01 t * 2⌋ ≤ 2 := by
  have h : clamp01 t * 2 ≤ ((2 : ℤ) : ℚ) := by
    have := clamp01_le_one t
    push_cast
    nlinarith
  calc ⌊clamp01 t * 2⌋ ≤ ⌊((2 : ℤ) : ℚ)⌋ := Int.floor_le_floor h
    _ = 2 := Int.floor_intCast 2

/-- C2, counterexample: the claim places clamped tone `3/4` in the interval
`[2/3, 1]` and so asserts intensity `k = 3`, but the code computes
`k = 1 + int(3/4 * 2) = 2`: the symbol has length 2, not 3. -/
theorem symbol_intensity_levels_ce :
    ((2 : ℚ) / 3 ≤ 3 / 4 ∧ (3 : ℚ) / 4 ≤ 1)
    ∧ (symbol "care" ((3 : ℚ) / 4)).length = 2
    ∧ (symbol "care" ((3 : ℚ) / 4)).length ≠ 3 := by
  have hc : clamp01 ((3 : ℚ) / 4) = 3 / 4 :=
    clamp01_of_mem (by norm_num) (by norm_num)
  have hlen : (symbol "care" ((3 : ℚ) / 4)).length = 2 := by
    rw [symbol_length, hc]
    have h32 : (3 : ℚ) / 4 * 2 = 3 / 2 := by norm_num
    have hf : ⌊(3 : ℚ) / 2⌋ = 1 := by
      rw [Int.floor_eq_iff]
      push_cast
      constructor <;> norm_num
    rw [h32, hf]
    rfl
  exact ⟨⟨by norm_num, by norm_num⟩, hlen, by omega⟩

/-- C2 (amended): `symbol(tag, tone)` is the tag's base character repeated
`k = 1 + floor(clamped_tone * 2)` times, and `k` is 1 for clamped tone in
`[0, 1/2)`, 2 for `[1/2, 1)`, and 3 exactly at clamped tone 1 (not at the
claimed breakpoints 1/3 and 2/3). -/
theorem symbol_intensity_levels_amended (tag : String) (tone : ℚ) :
    symbol tag tone =
      String.mk (List.replicate (1 + (⌊clamp01 tone * 2⌋).toNat) (PALETTE tag))
    ∧ (clamp01 tone < 1 / 2 → (symbol tag tone).length = 1)
    ∧ (1 / 2 ≤ clamp01 tone → clamp01 tone < 1 → (symbol tag tone).length = 2)
    ∧ (clamp01 tone = 1 → (symbol tag tone).length = 3) := by
  have h0 : (0 : ℚ) ≤ clamp01 tone * 2 := by
    have := clamp01_nonneg tone
    nlinarith
  have hf0 : 0 ≤ ⌊clamp01 tone * 2⌋ := Int.floor_nonneg.mpr h0
  refine ⟨?_, ?_, ?_, ?_⟩
  · rw [symbol, pyInt_eq_floor _ h0]
    congr 2
    omega
  · intro h
    have hfl : ⌊clamp01 tone * 2⌋ = 0 := by
      rw [Int.floor_eq_iff]
      push_cast
      constructor
      · linarith
      · linarith
    rw [symbol_length, hfl]
    rfl
  · intro h1 h2
    have hfl : ⌊clamp01 tone * 2⌋ = 1 := by
      rw [Int.floor_eq_iff]
      push_cast
      constructor
      · linarith
      · linarith
    rw [symbol_length, hfl]
    rfl
  · intro h
    have hfl : ⌊clamp01 tone * 2⌋ = 2 := by
      rw [Int.floor_eq_iff]
      push_cast
      rw [h]
      constructor
      · linarith
      · linarith
    rw [symbol_length, hfl]
    rfl

/-- Witness for the amended C2 at concrete tones `1/4` and `1`. -/
theorem symbol_intensity_levels_amended_witness :
    (symbol "ask" ((1 : ℚ) / 4)).length = 1
    ∧ (symbol "resolve" (1 : ℚ)).length = 3 :=
  ⟨(symbol_intensity_levels_amended "ask" ((1 : ℚ) / 4)).2.1
      (by rw [clamp01_of_mem (by norm_num) (by norm_num)]; norm_num),
   (symbol_intensity_levels_amended "resolve" (1 : ℚ)).2.2.2
      (clamp01_of_mem (by norm_num) (by norm_num))⟩

/-- C7: for a fixed tag the symbol length is monotone in the tone, and is
always one of 1, 2, 3 (the claim restricts both parts to tones in `[0,1]`;
they in fact hold for all rational tones thanks to the clamp). -/
theorem symbol_intensity_monotone (tag : String) (t1 t2 : ℚ) (h : t1 ≤ t2) :
    (symbol tag t1).length ≤ (symbol tag t2).length
    ∧ ((symbol tag t1).length = 1 ∨ (symbol tag t1).length = 2
        ∨ (symbol tag t1).length = 3) := by
  have hb1 := floor_twice_clamp_nonneg t1
  have hb2 := floor_twice_clamp_le_two t1
  have hb3 := floor_twice_clamp_nonneg t2
  constructor
  · rw [symbol_length, symbol_length]
    have hm : ⌊clamp01 t1 * 2⌋ ≤ ⌊clamp01 t2 * 2⌋ := by
      refine Int.floor_le_floor ?_
      have := clamp01_mono h
      nlinarith
    omega
  · rw [symbol_length]
    omega

/-- Witness for C7 at tones `1/4 ≤ 3/4`. -/
theorem symbol_intensity_monotone_witness :
    (symbol "ask" (mkRat 1 4)).length ≤ (symbol "ask" (mkRat 3 4)).length
    ∧ ((symbol "ask" (mkRat 1 4)).length = 1
        ∨ (symbol "ask" (mkRat 1 4)).length = 2
        ∨ (symbol "ask" (mkRat 1 4)).length = 3) :=
  symbol_intensity_monotone "ask" (mkRat 1 4) (mkRat 3 4) (by decide)

/-- C9: the drift of `perturb` depends only on the seed — the output is the
input shifted by `perturb 0 0 seed`, and each drift component lies in
`{-1, 0, 1}`. -/
theorem perturb_uniform_drift (x y x2 y2 s : Int) :
    perturb x y s = (x + (perturb 0 0 s).1, y + (perturb 0 0 s).2)
    ∧ (perturb x y s).1 - x = (perturb x2 y2 s).1 - x2
    ∧ (perturb x y s).2 - y = (perturb x2 y2 s).2 - y2
    ∧ ((perturb 0 0 s).1 = -1 ∨ (perturb 0 0 s).1 = 0 ∨ (perturb 0 0 s).1 = 1)
    ∧ ((perturb 0 0 s).2 = -1 ∨ (perturb 0 0 s).2 = 0 ∨ (perturb 0 0 s).2 = 1) := by
  simp only [perturb, Prod.mk.injEq]
  omega

/-- The nested layer/mark traversal of `render` is the flat traversal of
`allMarks`. -/
lemma renderGrid_eq_foldl (f : Field) :
    renderGrid f = (allMarks f).foldl (renderStep f.width f.height) initGrid := by
  rw [renderGrid, allMarks, List.foldl_flatten, List.foldl_map]

/-- An out-of-bounds mark leaves the working grid unchanged. -/
lemma renderStep_oob {w h : Int} {m : Mark}
    (hm : ¬(0 ≤ m.x ∧ m.x < w ∧ 0 ≤ m.y ∧ m.y < h))
    (g : Int → Int → ℚ × String) : renderStep w h g m = g :=
  if_neg hm

/-- Evaluating the grid at the cell of an in-bounds mark after that mark is
applied. -/
lemma renderStep_eval {w h : Int} (g : Int → Int → ℚ × String) (m : Mark)
    (y x : Int) (hin : 0 ≤ m.x ∧ m.x < w ∧ 0 ≤ m.y ∧ 0 ≤ m.y ∧ m.y < h)
    (hy : y = m.y) (hx : x = m.x) :
    renderStep w h g m y x =
      if (g m.y m.x).1 ≤ m.tone then (m.tone, symbol m.tag m.tone)
      else g y x := by
  subst hy
  subst hx
  have hin2 : 0 ≤ m.x ∧ m.x < w ∧ 0 ≤ m.y ∧ m.y < h :=
    ⟨hin.1, hin.2.1, hin.2.2.1, hin.2.2.2.2⟩
  simp only [renderStep, if_pos hin2]
  simp

/-- A field whose marks are exactly `[a, b]` at one in-bounds cell with
`a.tone ≤ b.tone` renders that cell from `b`. -/
lemma renderGrid_pair_le (f : Field) (a b : Mark)
    (hall : allMarks f = [a, b]) (hx : a.x = b.x) (hy : a.y = b.y)
    (hbx0 : 0 ≤ b.x) (hbx1 : b.x < f.width)
    (hby0 : 0 ≤ b.y) (hby1 : b.y < f.height)
    (hab : a.tone ≤ b.tone) (hb0 : 0 ≤ b.tone) :
    renderGrid f b.y b.x = (b.tone, symbol b.tag b.tone) := by
  have hbin : 0 ≤ b.x ∧ b.x < f.width ∧ 0 ≤ b.y ∧ 0 ≤ b.y ∧ b.y < f.height :=
    ⟨hbx0, hbx1, hby0, hby0, hby1⟩
  have hain : 0 ≤ a.x ∧ a.x < f.width ∧ 0 ≤ a.y ∧ 0 ≤ a.y ∧ a.y < f.height := by
    rw [hx, hy]
    exact hbin
  rw [renderGrid_eq_foldl, hall]
  simp only [List.foldl_cons, List.foldl_nil]
  rw [renderStep_eval _ b b.y b.x hbin rfl rfl,
    renderStep_eval initGrid a b.y b.x hain hy.symm hx.symm]
  simp only [initGrid]
  by_cases h0a : (0 : ℚ) ≤ a.tone
  · rw [if_pos h0a, if_pos hab]
  · rw [if_neg h0a, if_pos hb0]

/-- A field whose marks are exactly `[b, a]` at one in-bounds cell with
`a.tone < b.tone` renders that cell from `b` (the later, weaker mark does
not override). -/
lemma renderGrid_pair_gt (f : Field) (a b : Mark)
    (hall : allMarks f = [b, a]) (hx : a.x = b.x) (hy : a.y = b.y)
    (hbx0 : 0 ≤ b.x) (hbx1 : b.x < f.width)
    (hby0 : 0 ≤ b.y) (hby1 : b.y < f.height)
    (hab : a.tone < b.tone) (hb0 : 0 ≤ b.tone) :
    renderGrid f b.y b.x = (b.tone, symbol b.tag b.tone) := by
  have hbin : 0 ≤ b.x ∧ b.x < f.width ∧ 0 ≤ b.y ∧ 0 ≤ b.y ∧ b.y < f.height :=
    ⟨hbx0, hbx1, hby0, hby0, hby1⟩
  have hain : 0 ≤ a.x ∧ a.x < f.width ∧ 0 ≤ a.y ∧ 0 ≤ a.y ∧ a.y < f.height := by
    rw [hx, hy]
    exact hbin
  rw [renderGrid_eq_foldl, hall]
  simp only [List.foldl_cons, List.foldl_nil]
  have hb1 : renderStep f.width f.height initGrid b b.y b.x
      = (b.tone, symbol b.tag b.tone) := by
    rw [renderStep_eval initGrid b b.y b.x hbin rfl rfl]
    simp only [initGrid]
    rw [if_pos hb0]
  have hptA : renderStep f.width f.height initGrid b a.y a.x
      = (b.tone, symbol b.tag b.tone) := by
    rw [hx, hy]
    exact hb1
  rw [renderStep_eval _ a b.y b.x hain hy.symm hx.symm, hptA]
  rw [if_neg (by simpa using not_le.mpr hab), hb1]

/-- Flattening a layer list in which every layer except `la` (holding
exactly `a`) and the later `lb` (holding exactly `b`) is empty. -/
lemma allMarks_two_layers (f : Field) (L1 L2 L3 : List Layer) (la lb : Layer)
    (a b : Mark) (hlayers : f.layers = L1 ++ la :: (L2 ++ lb :: L3))
    (h1 : ∀ l ∈ L1, l.marks = []) (h2 : ∀ l ∈ L2, l.marks = [])
    (h3 : ∀ l ∈ L3, l.marks = [])
    (hla : la.marks = [a]) (hlb : lb.marks = [b]) :
    allMarks f = [a, b] := by
  have flat : ∀ L : List Layer, (∀ l ∈ L, l.marks = []) →
      (L.map Layer.marks).flatten = [] := by
    intro L hL
    rw [List.flatten_eq_nil_iff]
    intro l hl
    rcases List.mem_map.mp hl with ⟨l2, hl2, rfl⟩
    exact hL l2 hl2
  rw [allMarks, hlayers]
  simp only [List.map_append, List.map_cons, List.flatten_append,
    List.flatten_cons, hla, hlb, flat L1 h1, flat L2 h2, flat L3 h3]
  rfl

/-- C1: when a field's layers hold exactly two marks at the same in-bounds
cell with tones `t1 < t2` (tones are nonnegative per the data model), the
rendered cell carries the tone-`t2` mark's tone and symbol, regardless of
the order in which the two marks are processed (and hence of which layers
they belong to). -/
theorem render_tone_override (f : Field) (a b : Mark)
    (hall : allMarks f = [a, b] ∨ allMarks f = [b, a])
    (hx : a.x = b.x) (hy : a.y = b.y)
    (hbx0 : 0 ≤ b.x) (hbx1 : b.x < f.width)
    (hby0 : 0 ≤ b.y) (hby1 : b.y < f.height)
    (ha0 : 0 ≤ a.tone) (hab : a.tone < b.tone) :
    renderGrid f b.y b.x = (b.tone, symbol b.tag b.tone) := by
  have hb0 : 0 ≤ b.tone := le_of_lt (lt_of_le_of_lt ha0 hab)
  rcases hall with h | h
  · exact renderGrid_pair_le f a b h hx hy hbx0 hbx1 hby0 hby1 (le_of_lt hab) hb0
  · exact renderGrid_pair_gt f a b h hx hy hbx0 hbx1 hby0 hby1 hab hb0

/-- Witness for C1: in a 4×4 field holding a tone-`9/20` and a tone-`3/5`
mark at cell `(1,1)`, the cell renders the higher-tone mark. -/
theorem render_tone_override_witness :
    renderGrid wField1 wMarkHigh.y wMarkHigh.x
      = (wMarkHigh.tone, symbol wMarkHigh.tag wMarkHigh.tone) :=
  render_tone_override wField1 wMarkLow wMarkHigh (Or.inl rfl) rfl rfl
    (by decide) (by decide) (by decide) (by decide) (by decide) (by decide)

/-- C5: when a field holds exactly two equal-tone marks at the same
in-bounds cell, one in an earlier-deposited layer and one in a
later-deposited layer, the rendered cell reflects the mark of the
later-deposited layer (the `>=` comparison is inclusive). -/
theorem render_tie_break (f : Field) (L1 L2 L3 : List Layer) (la lb : Layer)
    (a b : Mark) (hlayers : f.layers = L1 ++ la :: (L2 ++ lb :: L3))
    (h1 : ∀ l ∈ L1, l.marks = []) (h2 : ∀ l ∈ L2, l.marks = [])
    (h3 : ∀ l ∈ L3, l.marks = [])
    (hla : la.marks = [a]) (hlb : lb.marks = [b])
    (hx : a.x = b.x) (hy : a.y = b.y)
    (hbx0 : 0 ≤ b.x) (hbx1 : b.x < f.width)
    (hby0 : 0 ≤ b.y) (hby1 : b.y < f.height)
    (htone : a.tone = b.tone) (hb0 : 0 ≤ b.tone) :
    renderGrid f b.y b.x = (b.tone, symbol b.tag b.tone) :=
  renderGrid_pair_le f a b
    (allMarks_two_layers f L1 L2 L3 la lb a b hlayers h1 h2 h3 hla hlb)
    hx hy hbx0 hbx1 hby0 hby1 (le_of_eq htone) hb0

/-- Witness for C5: two equal-tone marks in two successive layers; the
later layer's mark (tag `care`) wins the cell. -/
theorem render_tie_break_witness :
    renderGrid wFieldTie wMarkTie.y wMarkTie.x
      = (wMarkTie.tone, symbol wMarkTie.tag wMarkTie.tone) :=
  render_tie_break wFieldTie [] [] [] ⟨[wMarkLow]⟩ ⟨[wMarkTie]⟩
    wMarkLow wMarkTie rfl (by simp) (by simp) (by simp) rfl rfl rfl rfl
    (by decide) (by decide) (by decide) (by decide) (by decide) (by decide)

/-- C4: an out-of-bounds mark anywhere in the processing sequence does not
change the rendered value of any in-bounds cell: a field `f` containing it
renders every in-bounds cell exactly as the same-size field `g` without it
(and rendering is a total function, so no error is possible). -/
theorem render_bounds_safety (f g : Field) (m : Mark) (ms1 ms2 : List Mark)
    (hw : g.width = f.width) (hh : g.height = f.height)
    (hf : allMarks f = ms1 ++ m :: ms2) (hg : allMarks g = ms1 ++ ms2)
    (hoob : m.x < 0 ∨ f.width ≤ m.x ∨ m.y < 0 ∨ f.height ≤ m.y)
    (x y : Int) (hx0 : 0 ≤ x) (hx1 : x < f.width)
    (hy0 : 0 ≤ y) (hy1 : y < f.height) :
    renderGrid f y x = renderGrid g y x := by
  rw [renderGrid_eq_foldl, renderGrid_eq_foldl, hf, hg, hw, hh,
    List.foldl_append, List.foldl_append, List.foldl_cons,
    renderStep_oob (by omega)]

/-- Witness for C4: a 2×2 field whose only mark sits at `x = 9` renders
cell `(0,0)` exactly as the empty field does. -/
theorem render_bounds_safety_witness :
    renderGrid wField4a 0 0 = renderGrid wField4b 0 0 :=
  render_bounds_safety wField4a wField4b oobMark [] [] rfl rfl rfl rfl
    (by decide) 0 0 (by decide) (by decide) (by decide) (by decide)

/-- C8: `render` is read-only — in the state-passing embedding the field
coming out of `render(legend)` has the same width, height and layer list
(hence the same marks) as the field going in, for either legend value. -/
theorem render_read_only (f : Field) (legend : Bool) :
    (f.render legend).2.width = f.width
    ∧ (f.render legend).2.height = f.height
    ∧ (f.render legend).2.layers = f.layers :=
  ⟨rfl, rfl, rfl⟩

/-- `inscribe`'s loop emits exactly one mark per iteration. -/
lemma inscribeGo_length (tag : String) (stride : Int) (tone : ℚ) :
    ∀ (n i : ℕ) (x y : Int), (inscribeGo tag stride tone n i x y).length = n := by
  intro n
  induction n with
  | zero => intro i x y; rfl
  | succ n ih =>
    intro i x y
    simp only [inscribeGo, List.length_cons, ih]

/-- The `j`-th mark emitted by `inscribe`'s loop, in terms of the running
position `pathPosFrom`. -/
lemma inscribeGo_get (tag : String) (stride : Int) (tone : ℚ) :
    ∀ (n i : ℕ) (x y : Int) (j : ℕ), j < n →
      (inscribeGo tag stride tone n i x y).get? j =
        some (Mark.mk
          (perturb (pathPosFrom tag stride i (x, y) j).1
            (pathPosFrom tag stride i (x, y) j).2
            (Int.ofNat (i + j + fold_trace [tag]))).1
          (perturb (pathPosFrom tag stride i (x, y) j).1
            (pathPosFrom tag stride i (x, y) j).2
            (Int.ofNat (i + j + fold_trace [tag]))).2
          tone tag) := by
  intro n
  induction n with
  | zero => intro i x y j hj; exact absurd hj (Nat.not_lt_zero j)
  | succ n ih =>
    intro i x y j hj
    cases j with
    | zero =>
      simp only [inscribeGo, List.get?_cons_zero]
      rfl
    | succ j =>
      simp only [inscribeGo, List.get?_cons_succ]
      rw [ih (i + 1) (stepRule tag stride i x y).1 (stepRule tag stride i x y).2
        j (by omega)]
      have harith : i + 1 + j = i + (j + 1) := by omega
      rw [harith]
      rfl

/-- Advancing the suffix-form running position by one more step applies
the step rule at the accumulated loop counter. -/
lemma pathPosFrom_succ (tag : String) (stride : Int) :
    ∀ (j i : ℕ) (p : Int × Int),
      pathPosFrom tag stride i p (j + 1)
        = stepRule tag stride (i + j) (pathPosFrom tag stride i p j).1
            (pathPosFrom tag stride i p j).2 := by
  intro j
  induction j with
  | zero => intro i p; rfl
  | succ j ih =>
    intro i p
    have lhs : pathPosFrom tag stride i p (j + 1 + 1)
        = pathPosFrom tag stride (i + 1) (stepRule tag stride i p.1 p.2) (j + 1) :=
      rfl
    have rhs : pathPosFrom tag stride i p (j + 1)
        = pathPosFrom tag stride (i + 1) (stepRule tag stride i p.1 p.2) j :=
      rfl
    rw [lhs, rhs, ih (i + 1) (stepRule tag stride i p.1 p.2)]
    have harith : i + 1 + j = i + (j + 1) := by omega
    rw [harith]

/-- The specification-form running position agrees with the suffix form
started at loop counter 0. -/
lemma pathPos_eq_from (tag : String) (stride : Int) (origin : Int × Int) :
    ∀ j, pathPos tag stride origin j = pathPosFrom tag stride 0 origin j := by
  intro j
  induction j with
  | zero => rfl
  | succ j ih =>
    show stepRule tag stride j (pathPos tag stride origin j).1
        (pathPos tag stride origin j).2 = _
    rw [ih, pathPosFrom_succ tag stride j 0 origin]
    simp

/-- C3: `inscribe` emits exactly `steps` marks; the `j`-th mark (0-based)
sits at `perturb x_j y_j (j + fold_trace [tag])` with the given tone and
tag, where `(x_0, y_0) = origin` and `(x_(j+1), y_(j+1))` advances the
unperturbed `(x_j, y_j)` by the per-tag step rule; the layer is deposited
into the field and returned, and `steps = 0` yields an empty layer. -/
theorem inscribe_path_spec (f : Field) (origin : Int × Int) (steps : ℕ)
    (tag : String) (stride : Int) (tone : ℚ) :
    (inscribe f origin steps tag stride tone).1.marks.length = steps
    ∧ (∀ j, j < steps →
        (inscribe f origin steps tag stride tone).1.marks.get? j =
          some (Mark.mk
            (perturb (pathPos tag stride origin j).1
              (pathPos tag stride origin j).2
              (Int.ofNat (j + fold_trace [tag]))).1
            (perturb (pathPos tag stride origin j).1
              (pathPos tag stride origin j).2
              (Int.ofNat (j + fold_trace [tag]))).2
            tone tag))
    ∧ (inscribe f origin steps tag stride tone).2
        = { f with
            layers := f.layers ++ [(inscribe f origin steps tag stride tone).1] }
    ∧ (steps = 0 → (inscribe f origin steps tag stride tone).1.marks = []) := by
  refine ⟨inscribeGo_length tag stride tone steps 0 origin.1 origin.2, ?_, rfl, ?_⟩
  · intro j hj
    have h := inscribeGo_get tag stride tone steps 0 origin.1 origin.2 j hj
    have hm : (inscribe f origin steps tag stride tone).1.marks
        = inscribeGo tag stride tone steps 0 origin.1 origin.2 := rfl
    rw [hm, h, pathPos_eq_from tag stride origin j]
    simp
  · intro h
    subst h
    rfl

/-- Witness for C3: two `ask` steps from `(2,3)`; the loop emits two marks
and the second sits at `perturb 3 2 98 = (4, 2)`. -/
theorem inscribe_path_spec_witness :
    (inscribe wField0 (2, 3) 2 "ask" 1 (mkRat 9 20)).1.marks.length = 2
    ∧ (inscribe wField0 (2, 3) 2 "ask" 1 (mkRat 9 20)).1.marks.get? 1
        = some (Mark.mk 4 2 (mkRat 9 20) "ask") := by
  refine ⟨(inscribe_path_spec wField0 (2, 3) 2 "ask" 1 (mkRat 9 20)).1, ?_⟩
  rw [(inscribe_path_spec wField0 (2, 3) 2 "ask" 1 (mkRat 9 20)).2.1 1 (by decide)]
  decide

/-- The nested layer/mark traversal of `braid` is the flat traversal of the
flattened mark list. -/
lemma braid_marks (layers : List Layer) :
    (braid layers).marks
      = (((layers.map Layer.marks).flatten).foldl bagUpdate []).map Prod.snd := by
  show (layers.foldl (fun bag l => l.marks.foldl bagUpdate bag) []).map Prod.snd = _
  rw [List.foldl_flatten, List.foldl_map]

/-- Looking up the updated key after a `bagUpdate`. -/
lemma bagFind_bagUpdate_self :
    ∀ (bag : List ((Int × Int) × Mark)) (m : Mark),
      bagFind (bagUpdate bag m) (m.x, m.y) = winStep (bagFind bag (m.x, m.y)) m := by
  intro bag m
  induction bag with
  | nil => simp [bagUpdate, bagFind, winStep]
  | cons kv rest ih =>
    obtain ⟨k, v⟩ := kv
    by_cases hk : k = (m.x, m.y)
    · subst hk
      by_cases ht : v.tone ≤ m.tone
      · simp [bagUpdate, bagFind, winStep, ht]
      · simp [bagUpdate, bagFind, winStep, ht]
    · simp [bagUpdate, bagFind, hk, ih]

/-- Looking up any other key after a `bagUpdate`. -/
lemma bagFind_bagUpdate_other :
    ∀ (bag : List ((Int × Int) × Mark)) (m : Mark) (c : Int × Int),
      ¬(m.x, m.y) = c → bagFind (bagUpdate bag m) c = bagFind bag c := by
  intro bag m
  induction bag with
  | nil => intro c hc; simp [bagUpdate, bagFind, hc]
  | cons kv rest ih =>
    obtain ⟨k, v⟩ := kv
    intro c hc
    by_cases hk : k = (m.x, m.y)
    · subst hk
      by_cases ht : v.tone ≤ m.tone
      · simp [bagUpdate, bagFind, ht, hc]
      · simp [bagUpdate, bagFind, ht]
    · simp [bagUpdate, bagFind, hk, ih c hc]

/-- Folding marks through the bag computes, per key, the winner scan. -/
lemma bagFind_foldl (c : Int × Int) :
    ∀ (ms : List Mark) (bag : List ((Int × Int) × Mark)),
      bagFind (ms.foldl bagUpdate bag) c = ms.foldl (winAt c) (bagFind bag c) := by
  intro ms
  induction ms with
  | nil => intro bag; rfl
  | cons m ms ih =>
    intro bag
    simp only [List.foldl_cons]
    rw [ih (bagUpdate bag m)]
    congr 1
    by_cases hc : (m.x, m.y) = c
    · subst hc
      rw [winAt, if_pos rfl, bagFind_bagUpdate_self]
    · rw [winAt, if_neg hc, bagFind_bagUpdate_other bag m c hc]

/-- The winner scan over all marks equals the scan over the marks at `c`. -/
lemma specWinner_eq_scan (ms : List Mark) (c : Int × Int) :
    specWinner ms c = ms.foldl (winAt c) none := by
  rw [specWinner, marksAt]
  generalize none = acc
  induction ms generalizing acc with
  | nil => rfl
  | cons m ms ih =>
    by_cases hc : (m.x, m.y) = c
    · rw [List.filter_cons_of_pos (by simpa using hc), List.foldl_cons,
        List.foldl_cons, winAt, if_pos hc]
      exact ih (winStep acc m)
    · rw [List.filter_cons_of_neg (by simpa using hc), List.foldl_cons,
        winAt, if_neg hc]
      exact ih acc

/-- The keys of the bag after an update: unchanged if the mark's key was
present, otherwise the key is appended. -/
lemma keys_bagUpdate :
    ∀ (bag : List ((Int × Int) × Mark)) (m : Mark),
      (bagUpdate bag m).map Prod.fst
        = if (m.x, m.y) ∈ bag.map Prod.fst then bag.map Prod.fst
          else bag.map Prod.fst ++ [(m.x, m.y)] := by
  intro bag m
  induction bag with
  | nil => simp [bagUpdate]
  | cons kv rest ih =>
    obtain ⟨k, v⟩ := kv
    by_cases hk : k = (m.x, m.y)
    · subst hk
      by_cases ht : v.tone ≤ m.tone
      · simp [bagUpdate, ht]
      · simp [bagUpdate, ht]
    · have hk2 : ¬(m.x, m.y) = k := fun h => hk h.symm
      simp only [bagUpdate, if_neg hk, List.map_cons, ih, List.mem_cons]
      by_cases hmem : (m.x, m.y) ∈ rest.map Prod.fst
      · rw [if_pos hmem, if_pos (Or.inr hmem)]
      · rw [if_neg hmem, if_neg (by tauto), List.cons_append]

/-- Every entry of an updated bag is an old entry or the new mark keyed at
its own coordinate. -/
lemma mem_bagUpdate :
    ∀ (bag : List ((Int × Int) × Mark)) (m : Mark) (kv),
      kv ∈ bagUpdate bag m → kv ∈ bag ∨ kv = ((m.x, m.y), m) := by
  intro bag m
  induction bag with
  | nil =>
    intro kv h
    simp [bagUpdate] at h
    exact Or.inr h
  | cons kv2 rest ih =>
    obtain ⟨k, v⟩ := kv2
    intro kv h
    by_cases hk : k = (m.x, m.y)
    · subst hk
      by_cases ht : v.tone ≤ m.tone
      · simp [bagUpdate, ht] at h
        rcases h with h | h
        · exact Or.inr h
        · exact Or.inl (List.mem_cons_of_mem _ h)
      · simp [bagUpdate, ht] at h
        rcases h with h | h
        · exact Or.inl (by rw [h]; exact List.mem_cons_self _ _)
        · exact Or.inl (List.mem_cons_of_mem _ h)
    · simp only [bagUpdate, if_neg hk, List.mem_cons] at h
      rcases h with h | h
      · exact Or.inl (by rw [h]; exact List.mem_cons_self _ _)
      · rcases ih kv h with h2 | h2
        · exact Or.inl (List.mem_cons_of_mem _ h2)
        · exact Or.inr h2

/-- `bagUpdate` preserves well-formedness of the bag. -/
lemma bagWF_bagUpdate (bag : List ((Int × Int) × Mark)) (m : Mark)
    (h : bagWF bag) : bagWF (bagUpdate bag m) := by
  obtain ⟨hnd, hvals⟩ := h
  constructor
  · rw [keys_bagUpdate]
    by_cases hmem : (m.x, m.y) ∈ bag.map Prod.fst
    · rw [if_pos hmem]
      exact hnd
    · rw [if_neg hmem]
      rw [List.nodup_append]
      refine ⟨hnd, List.nodup_singleton _, ?_⟩
      intro a ha hb
      rw [List.mem_singleton] at hb
      subst hb
      exact hmem ha
  · intro kv hkv
    rcases mem_bagUpdate bag m kv hkv with h1 | h1
    · exact hvals kv h1
    · subst h1
      rfl

/-- The empty bag is well formed. -/
lemma bagWF_nil : bagWF [] := by
  constructor
  · exact List.nodup_nil
  · intro kv hkv
    cases hkv

/-- Folding any marks through a well-formed bag keeps it well formed. -/
lemma bagWF_foldl :
    ∀ (ms : List Mark) (bag : List ((Int × Int) × Mark)),
      bagWF bag → bagWF (ms.foldl bagUpdate bag) := by
  intro ms
  induction ms with
  | nil => intro bag h; exact h
  | cons m ms ih =>
    intro bag h
    exact ih (bagUpdate bag m) (bagWF_bagUpdate bag m h)

/-- Every value of an updated bag is an old value or the new mark. -/
lemma mem_values_bagUpdate (bag : List ((Int × Int) × Mark)) (m v : Mark)
    (hv : v ∈ (bagUpdate bag m).map Prod.snd) :
    v ∈ bag.map Prod.snd ∨ v = m := by
  rcases List.mem_map.mp hv with ⟨kv, hkv, rfl⟩
  rcases mem_bagUpdate bag m kv hkv with h1 | h1
  · exact Or.inl (List.mem_map.mpr ⟨kv, h1, rfl⟩)
  · subst h1
    exact Or.inr rfl

/-- Every value of the folded bag comes from the initial bag or the marks. -/
lemma mem_values_foldl :
    ∀ (ms : List Mark) (bag : List ((Int × Int) × Mark)) (v : Mark),
      v ∈ ((ms.foldl bagUpdate bag).map Prod.snd) →
        v ∈ bag.map Prod.snd ∨ v ∈ ms := by
  intro ms
  induction ms with
  | nil => intro bag v h; exact Or.inl h
  | cons m ms ih =>
    intro bag v h
    rcases ih (bagUpdate bag m) v h with h1 | h1
    · rcases mem_values_bagUpdate bag m v h1 with h2 | h2
      · exact Or.inl h2
      · exact Or.inr (h2 ▸ List.mem_cons_self m ms)
    · exact Or.inr (List.mem_cons_of_mem m h1)

/-- In a bag whose values sit at their keys and whose keys avoid `c`,
no value sits at `c`. -/
lemma values_filter_nil :
    ∀ (bag : List ((Int × Int) × Mark)) (c : Int × Int),
      (∀ kv ∈ bag, (kv.2.x, kv.2.y) = kv.1) → c ∉ bag.map Prod.fst →
      (bag.map Prod.snd).filter (fun v => decide ((v.x, v.y) = c)) = [] := by
  intro bag
  induction bag with
  | nil => intro c _ _; rfl
  | cons kv rest ih =>
    obtain ⟨k, v⟩ := kv
    intro c hvals hc
    have hv : (v.x, v.y) = k := hvals (k, v) (List.mem_cons_self _ _)
    have hkc : ¬k = c := by
      intro h
      exact hc (by simp [h])
    simp only [List.map_cons]
    rw [List.filter_cons_of_neg (by simp [hv, hkc])]
    exact ih c (fun kv2 hkv2 => hvals kv2 (List.mem_cons_of_mem _ hkv2))
      (fun h2 => hc (List.mem_cons_of_mem _ h2))

/-- In a well-formed bag, the values at coordinate `c` are exactly the
looked-up entry. -/
lemma values_filter_eq :
    ∀ (bag : List ((Int × Int) × Mark)), bagWF bag →
      ∀ c, (bag.map Prod.snd).filter (fun v => decide ((v.x, v.y) = c))
        = (bagFind bag c).toList := by
  intro bag
  induction bag with
  | nil => intro _ c; rfl
  | cons kv rest ih =>
    obtain ⟨k, v⟩ := kv
    intro h c
    obtain ⟨hnd, hvals⟩ := h
    have hv : (v.x, v.y) = k := hvals (k, v) (List.mem_cons_self _ _)
    have hk : k ∉ rest.map Prod.fst := by
      rw [List.map_cons, List.nodup_cons] at hnd
      exact hnd.1
    have hwfrest : bagWF rest := by
      constructor
      · rw [List.map_cons, List.nodup_cons] at hnd
        exact hnd.2
      · exact fun kv2 hkv2 => hvals kv2 (List.mem_cons_of_mem _ hkv2)
    by_cases hkc : k = c
    · subst hkc
      have hfind : bagFind ((k, v) :: rest) k = some v := by
        simp [bagFind]
      simp only [List.map_cons]
      rw [List.filter_cons_of_pos (by simp [hv]), hfind,
        values_filter_nil rest k hwfrest.2 hk]
      rfl
    · have hfind : bagFind ((k, v) :: rest) c = bagFind rest c := by
        simp [bagFind, hkc]
      simp only [List.map_cons]
      rw [List.filter_cons_of_neg (by simp [hv, hkc]), hfind]
      exact ih hwfrest c

/-- C6: per coordinate, `braid` keeps exactly the mark selected by the
specification's rule — the highest-tone mark among all input marks at that
coordinate, later-processed marks winning ties (processing order is
left-to-right over the supplied layers, then mark order within a layer);
coordinates occupied by no input mark get no mark. -/
theorem braid_keeps_highest (layers : List Layer) (c : Int × Int) :
    (braid layers).marks.filter (fun m => decide ((m.x, m.y) = c))
      = (specWinner ((layers.map Layer.marks).flatten) c).toList := by
  rw [braid_marks,
    values_filter_eq _ (bagWF_foldl ((layers.map Layer.marks).flatten) [] bagWF_nil) c,
    bagFind_foldl c, specWinner_eq_scan]
  rfl

/-- C10: the layer built by `braid` has pairwise-distinct coordinates, and
each of its marks occurs in one of the input layers (`braid` is a pure
function of the layer lists: it reads no field and returns a fresh layer). -/
theorem braid_output_invariants (layers : List Layer) :
    ((braid layers).marks.map (fun m => (m.x, m.y))).Nodup
    ∧ ∀ m ∈ (braid layers).marks, ∃ l ∈ layers, m ∈ l.marks := by
  have hwf := bagWF_foldl ((layers.map Layer.marks).flatten) [] bagWF_nil
  constructor
  · rw [braid_marks, List.map_map]
    have hcongr :
        (((layers.map Layer.marks).flatten).foldl bagUpdate []).map
            ((fun m => (m.x, m.y)) ∘ Prod.snd)
          = (((layers.map Layer.marks).flatten).foldl bagUpdate []).map Prod.fst :=
      List.map_congr_left (fun kv hkv => hwf.2 kv hkv)
    rw [hcongr]
    exact hwf.1
  · intro m hm
    rw [braid_marks] at hm
    rcases mem_values_foldl ((layers.map Layer.marks).flatten) [] m hm with h | h
    · cases h
    · rcases List.mem_flatten.mp h with ⟨ms, hms, hmm⟩
      rcases List.mem_map.mp hms with ⟨l, hl, rfl⟩
      exact ⟨l, hl, hmm⟩

/-- Witness for C10 on two concrete layers: distinct coordinates, and the
kept mark at `(1,1)` indeed occurs in an input layer. -/
theorem braid_output_invariants_witness :
    ((braid [wLayerA, wLayerB]).marks.map (fun m => (m.x, m.y))).Nodup
    ∧ ∃ l ∈ [wLayerA, wLayerB], wMarkHigh ∈ l.marks :=
  ⟨(braid_output_invariants [wLayerA, wLayerB]).1,
   (braid_output_invariants [wLayerA, wLayerB]).2 wMarkHigh (by decide)⟩

end UglyClearness
